import Mathlib

/-!
Verification of the AtTool message post-processing filter.

The embedding models `src/main.py`:
* strings are `List Char`;
* `valid_at_pattern = \[at:(\d+)\]` and
  `invalid_at_pattern = \[at:(?!\d+\])[^\]]*\]` are modelled by the
  at-a-position matchers `validAtHead` and `invalidAtHead`, and the
  left-to-right non-overlapping scans `re.sub` / `re.finditer` by the
  fueled scanners `invalidSubF` / `validScanF` / `encodeValidF`
  (fuel is the remaining input length, so the top-level wrappers are
  exact translations of the single-pass scans);
* the message chain is a list of segments: `Plain` text, `At` mention
  components, and `media` standing for any other (non-text) component
  such as an image;
* `process_at_tags` is the chain rewriter, with the fast-path check
  `chainHasTag` mirroring the `"[at:" in comp.text` loop;
* `get_group_members` is the roster fetcher, with the network call made
  an explicit argument and the number of performed calls returned.
-/

set_option maxHeartbeats 1000000

namespace AtTool

/-- A message-chain segment: `Plain` models `astrbot` `Plain(text)`,
`At` models `At(qq=...)`, and `media` models any other non-text
component (an image etc.), identified by an arbitrary token. -/
inductive Seg where
  | Plain (text : List Char) : Seg
  | At (qq : List Char) : Seg
  | media (payload : Nat) : Seg
deriving DecidableEq

/-- The zero-width space (U+200B) inserted around `At` components. -/
def zwsp : Char := '\u200b'

/-- The spacer segment `Plain("​")`. -/
def spacer : Seg := Seg.Plain [zwsp]

/-- True iff the list begins with the four characters `[`, `a`, `t`, `:`
of the tag prefix `"[at:"`. -/
def startsWithAt : List Char → Bool
  | a :: b :: c :: d :: _ => a == '[' && b == 'a' && c == 't' && d == ':'
  | _ => false

/-- True iff `"[at:"` occurs somewhere in the list; models the Python
substring test `"[at:" in text`. -/
def containsTag : List Char → Bool
  | [] => false
  | c :: cs => startsWithAt (c :: cs) || containsTag cs

/-- Matching of `valid_at_pattern = \[at:(\d+)\]` at the head of the
list: on success returns the captured digit group and the remainder of
the input after the closing bracket. -/
def validAtHead (l : List Char) : Option (List Char × List Char) :=
  if startsWithAt l then
    let cs := l.drop 4
    let ds := cs.takeWhile Char.isDigit
    if ds.isEmpty then none
    else
      match cs.dropWhile Char.isDigit with
      | ']' :: r => some (ds, r)
      | _ => none
  else none

/-- True iff the list starts with the character `]`. -/
def headIsRB (l : List Char) : Bool :=
  match l with
  | c :: _ => c == ']'
  | [] => false

/-- Matching of `invalid_at_pattern = \[at:(?!\d+\])[^\]]*\]` at the
head of the list: the negative lookahead `(?!\d+\])` succeeds exactly
when the text after `"[at:"` does not begin with one-or-more digits
followed by `]`; the body `[^\]]*\]` then runs to the first `]`. On
success returns the remainder of the input after the match. -/
def invalidAtHead (l : List Char) : Option (List Char) :=
  if startsWithAt l then
    let cs := l.drop 4
    if !(cs.takeWhile Char.isDigit).isEmpty
        && headIsRB (cs.dropWhile Char.isDigit) then
      none
    else
      match cs.dropWhile (fun c => !(c == ']')) with
      | ']' :: r => some r
      | _ => none
  else none

/-- Fueled left-to-right non-overlapping substitution of
`invalid_at_pattern` by the empty string, one character step per fuel
unit; models `invalid_at_pattern.sub("", text)` when the fuel is at
least the input length. -/
def invalidSubF : Nat → List Char → List Char
  | _, [] => []
  | 0, l => l
  | fuel + 1, c :: cs =>
    match invalidAtHead (c :: cs) with
    | some r => invalidSubF fuel r
    | none => c :: invalidSubF fuel cs

/-- `invalid_at_pattern.sub("", text)`: the Python `re.sub` with exact
fuel. -/
def invalidSub (l : List Char) : List Char := invalidSubF l.length l

/-- Fueled left-to-right non-overlapping scan for `valid_at_pattern`,
returning the captured digit groups in order; models
`valid_at_pattern.finditer(text)` when the fuel is at least the input
length. -/
def validScanF : Nat → List Char → List (List Char)
  | _, [] => []
  | 0, _ :: _ => []
  | fuel + 1, c :: cs =>
    match validAtHead (c :: cs) with
    | some (ds, rest) => ds :: validScanF fuel rest
    | none => validScanF fuel cs

/-- The captured user ids of all valid-pattern matches, in order. -/
def validScan (l : List Char) : List (List Char) := validScanF l.length l

/-- Fueled encoding loop over one (already sanitized) text: walks the
valid-pattern matches left to right, keeping the (reversed) buffer of
characters seen since the previous match; at each match it flushes the
buffer as a `Plain` segment when non-empty and emits
spacer, `At`, spacer; at the end it flushes the remaining buffer when
non-empty.  This is the `last_idx` cursor loop of `process_at_tags`. -/
def encodeValidF : Nat → List Char → List Char → List Seg
  | _, pending, [] =>
    if pending.isEmpty then [] else [Seg.Plain pending.reverse]
  | 0, _, _ :: _ => []
  | fuel + 1, pending, c :: cs =>
    match validAtHead (c :: cs) with
    | some (ds, rest) =>
      (if pending.isEmpty then [] else [Seg.Plain pending.reverse]) ++
        spacer :: Seg.At ds :: spacer :: encodeValidF fuel [] rest
    | none => encodeValidF fuel (c :: pending) cs

/-- The encoding loop with a given initial buffer and exact fuel. -/
def encodeValidGo (pending cs : List Char) : List Seg :=
  encodeValidF cs.length pending cs

/-- The encoding loop started with an empty buffer. -/
def encodeText (l : List Char) : List Seg := encodeValidGo [] l

/-- Full treatment of one `Plain` segment inside `process_at_tags`:
delete the invalid tags, then encode the valid ones. -/
def processPlain (l : List Char) : List Seg := encodeText (invalidSub l)

/-- The fast-path test on one segment: `isinstance(comp, Plain) and
"[at:" in comp.text`. -/
def isPlainWithTag : Seg → Bool
  | Seg.Plain t => containsTag t
  | _ => false

/-- The fast-path test on the whole chain. -/
def chainHasTag (chain : List Seg) : Bool := chain.any isPlainWithTag

/-- Per-segment rewriting in the rebuild path of `process_at_tags`:
`Plain` segments are sanitized and encoded, every other component is
appended unchanged. -/
def rewriteSeg : Seg → List Seg
  | Seg.Plain t => processPlain t
  | s => [s]

/-- Concatenation of the per-segment rewrites of a chain, in order. -/
def flatMapSegs (f : Seg → List Seg) : List Seg → List Seg
  | [] => []
  | s :: rest => f s ++ flatMapSegs f rest

/-- The chain rewriter `process_at_tags`: if no `Plain` segment
contains the prefix `"[at:"` the chain is returned unchanged,
otherwise a new chain is built from the per-segment rewrites. -/
def process_at_tags (chain : List Seg) : List Seg :=
  if chainHasTag chain then flatMapSegs rewriteSeg chain else chain

/-- Per-segment rewriting conditioned on whether the rebuild path runs:
`expandSeg true` is the rebuild rewrite, `expandSeg false` keeps the
segment as it is. -/
def expandSeg (b : Bool) (s : Seg) : List Seg :=
  if b then rewriteSeg s else [s]

/-- The text content of a segment, `[]` for non-text segments. -/
def textOf : Seg → List Char
  | Seg.Plain t => t
  | _ => []

/-- A raw member record as returned by the `get_group_member_list`
OneBot API call: each field is `none` when the key is absent; the
`user_id` field carries the `str()` image of the raw value. -/
structure RawMember where
  user_id : Option (List Char)
  card : Option (List Char)
  nickname : Option (List Char)
  role : Option (List Char)
deriving DecidableEq

/-- A cleaned member record as placed in the tool result. -/
structure Member where
  user_id : List Char
  names : List (List Char)
  role : List Char
deriving DecidableEq

/-- Python truthiness of an optional string field: contributes the
value as a one-element list exactly when present and non-empty. -/
def optName : Option (List Char) → List (List Char)
  | some (c :: cs) => [c :: cs]
  | _ => []

/-- Projection of one raw record inside `get_group_members`:
`uid = str(member.get("user_id", ""))`, skip when empty, aggregate
`card` then `nickname` when truthy, default the role to `"member"`
when the key is absent. -/
def projMember (m : RawMember) : Option Member :=
  let uid := m.user_id.getD []
  if uid.isEmpty then none
  else
    some
      { user_id := uid
        names := optName m.card ++ optName m.nickname
        role := m.role.getD ('m' :: 'e' :: 'm' :: 'b' :: 'e' :: 'r' :: []) }

/-- The `processed_members` list of `get_group_members`. -/
def processMembers (ms : List RawMember) : List Member :=
  ms.filterMap projMember

/-- The value-level result of the `get_group_members` tool call. -/
inductive ToolResult where
  | err (msg : List Char) : ToolResult
  | ok (group_id : List Char) (total : Nat) (members : List Member) : ToolResult
deriving DecidableEq

/-- The conversation context seen by the tool: the group identifier as
`event.get_group_id()` returns it (`none` models `None`), and whether
the event is an `AiocqhttpMessageEvent`. -/
structure Event where
  group_id : Option (List Char)
  isAiocq : Bool
deriving DecidableEq

/-- Python falsiness of `event.get_group_id()`: `None` or `""`. -/
def groupIdFalsy : Option (List Char) → Bool
  | none => true
  | some l => l.isEmpty

/-- Error payload `"Not a group chat environment."`. -/
def errNotGroup : List Char := "Not a group chat environment.".toList

/-- Error payload `"Only supports OneBot(aiocqhttp) protocol."`. -/
def errProtocol : List Char := "Only supports OneBot(aiocqhttp) protocol.".toList

/-- Error payload `"Failed to fetch members (permission denied or network error)."`. -/
def errFetch : List Char :=
  "Failed to fetch members (permission denied or network error).".toList

/-- The `get_group_members` tool: the network lookup is passed in as
the value `fetch` that the awaited `_get_group_members_internal` call
would produce (`none` models both an exception and a `None` reply);
the second component counts how many times the lookup was performed. -/
def get_group_members (ev : Event) (fetch : Option (List RawMember)) :
    ToolResult × Nat :=
  if groupIdFalsy ev.group_id then (ToolResult.err errNotGroup, 0)
  else if !ev.isAiocq then (ToolResult.err errProtocol, 0)
  else
    match fetch with
    | none => (ToolResult.err errFetch, 1)
    | some [] => (ToolResult.err errFetch, 1)
    | some ms =>
      (ToolResult.ok (ev.group_id.getD []) (processMembers ms).length
        (processMembers ms), 1)

/-! Basic facts about the tag prefix. -/

/-- Characterization of `startsWithAt`. -/
theorem startsWithAt_iff {l : List Char} :
    startsWithAt l = true ↔ ∃ t, l = '[' :: 'a' :: 't' :: ':' :: t := by
  constructor
  · intro h
    rcases l with _ | ⟨a, _ | ⟨b, _ | ⟨c, _ | ⟨d, t⟩⟩⟩⟩
    · simp [startsWithAt] at h
    · simp [startsWithAt] at h
    · simp [startsWithAt] at h
    · simp [startsWithAt] at h
    · rw [show startsWithAt (a :: b :: c :: d :: t) =
          (a == '[' && b == 'a' && c == 't' && d == ':') from rfl] at h
      simp only [Bool.and_eq_true, beq_iff_eq] at h
      obtain ⟨⟨⟨h1, h2⟩, h3⟩, h4⟩ := h
      subst h1; subst h2; subst h3; subst h4
      exact ⟨t, rfl⟩
  · rintro ⟨t, rfl⟩
    rfl

theorem startsWithAt_head {c : Char} {cs : List Char}
    (h : startsWithAt (c :: cs) = true) : c = '[' := by
  obtain ⟨t, ht⟩ := startsWithAt_iff.mp h
  have hc := congrArg List.head? ht
  simpa using hc

theorem startsWithAt_mono {l m : List Char} (h : startsWithAt l = true) :
    startsWithAt (l ++ m) = true := by
  obtain ⟨t, rfl⟩ := startsWithAt_iff.mp h
  rfl

/-- A tag prefix cannot straddle the boundary between a prefix-free
non-empty block and a continuation that starts with `[`. -/
theorem startsWithAt_append_false {x : Char} {xs rest : List Char}
    (hx : startsWithAt (x :: xs) = false) (hr : rest.head? = some '[') :
    startsWithAt ((x :: xs) ++ rest) = false := by
  rcases rest with _ | ⟨r0, rest'⟩
  · simp at hr
  · have hr0 : r0 = '[' := by simpa using hr
    subst hr0
    by_contra hcon
    rw [Bool.not_eq_false] at hcon
    obtain ⟨t, ht⟩ := startsWithAt_iff.mp hcon
    rcases xs with _ | ⟨b, _ | ⟨c, _ | ⟨d, tl⟩⟩⟩
    · injection ht with e1 ht1
      injection ht1 with e2 _
      exact absurd e2 (by decide)
    · injection ht with e1 ht1
      injection ht1 with e2 ht2
      injection ht2 with e3 _
      exact absurd e3 (by decide)
    · injection ht with e1 ht1
      injection ht1 with e2 ht2
      injection ht2 with e3 ht3
      injection ht3 with e4 _
      exact absurd e4 (by decide)
    · injection ht with e1 ht1
      injection ht1 with e2 ht2
      injection ht2 with e3 ht3
      injection ht3 with e4 _
      subst e1; subst e2; subst e3; subst e4
      simp [startsWithAt] at hx

theorem invalidAtHead_of_not_start {l : List Char}
    (h : startsWithAt l = false) : invalidAtHead l = none := by
  simp [invalidAtHead, h]

theorem validAtHead_of_not_start {l : List Char}
    (h : startsWithAt l = false) : validAtHead l = none := by
  simp [validAtHead, h]

theorem startsWithAt_length {l : List Char} (h : startsWithAt l = true) :
    4 ≤ l.length := by
  obtain ⟨t, rfl⟩ := startsWithAt_iff.mp h
  rw [List.length_cons, List.length_cons, List.length_cons, List.length_cons]
  omega

theorem dropWhile_length_le (p : Char → Bool) (l : List Char) :
    (l.dropWhile p).length ≤ l.length := by
  induction l with
  | nil => simp [List.dropWhile]
  | cons c cs ih =>
    rw [List.dropWhile_cons]
    split
    · exact Nat.le_trans ih (by simp)
    · simp

/-- A successful invalid-pattern match consumes at least five
characters. -/
theorem invalidAtHead_length {l r : List Char}
    (h : invalidAtHead l = some r) : r.length < l.length := by
  cases hsw : startsWithAt l with
  | false => rw [invalidAtHead_of_not_start hsw] at h; cases h
  | true =>
    have h4 := startsWithAt_length hsw
    unfold invalidAtHead at h
    rw [hsw] at h
    simp only [if_true] at h
    split at h
    · cases h
    · split at h
      · rename_i r' heq
        injection h with h'
        subst h'
        have hle : (']' :: r').length ≤ (l.drop 4).length := by
          rw [← heq]; exact dropWhile_length_le _ _
        rw [List.length_drop] at hle
        simp [List.length_cons] at hle
        omega
      · cases h

/-- A successful valid-pattern match consumes at least six
characters. -/
theorem validAtHead_length {l ds r : List Char}
    (h : validAtHead l = some (ds, r)) : r.length < l.length := by
  cases hsw : startsWithAt l with
  | false => rw [validAtHead_of_not_start hsw] at h; cases h
  | true =>
    have h4 := startsWithAt_length hsw
    unfold validAtHead at h
    rw [hsw] at h
    simp only [if_true] at h
    split at h
    · cases h
    · split at h
      · rename_i r' heq
        injection h with h'
        rw [Prod.mk.injEq] at h'
        obtain ⟨-, h2⟩ := h'
        subst h2
        have hle : (']' :: r').length ≤ (l.drop 4).length := by
          rw [← heq]; exact dropWhile_length_le _ _
        rw [List.length_drop] at hle
        simp [List.length_cons] at hle
        omega
      · cases h

/-! Fuel irrelevance and unfolding equations for the scanners. -/

theorem invalidSubF_irrel :
    ∀ f1 f2 (l : List Char), l.length ≤ f1 → l.length ≤ f2 →
      invalidSubF f1 l = invalidSubF f2 l := by
  intro f1
  induction f1 with
  | zero =>
    intro f2 l h1 _
    have hl : l = [] := List.length_eq_zero.mp (Nat.le_zero.mp h1)
    subst hl
    simp [invalidSubF]
  | succ f1 ih =>
    intro f2 l h1 h2
    cases l with
    | nil => simp [invalidSubF]
    | cons c cs =>
      rw [List.length_cons] at h1 h2
      cases f2 with
      | zero => omega
      | succ f2' =>
        cases hm : invalidAtHead (c :: cs) with
        | some r =>
          have hr : r.length < cs.length + 1 := invalidAtHead_length hm
          show invalidSubF (f1 + 1) (c :: cs) = invalidSubF (f2' + 1) (c :: cs)
          simp only [invalidSubF, hm]
          exact ih f2' r (by omega) (by omega)
        | none =>
          show invalidSubF (f1 + 1) (c :: cs) = invalidSubF (f2' + 1) (c :: cs)
          simp only [invalidSubF, hm]
          rw [ih f2' cs (by omega) (by omega)]

theorem invalidSub_nil : invalidSub [] = [] := rfl

theorem invalidSub_cons_some {c : Char} {cs r : List Char}
    (h : invalidAtHead (c :: cs) = some r) :
    invalidSub (c :: cs) = invalidSub r := by
  have hr : r.length < cs.length + 1 := invalidAtHead_length h
  show invalidSubF (c :: cs).length (c :: cs) = invalidSubF r.length r
  rw [List.length_cons]
  simp only [invalidSubF, h]
  exact invalidSubF_irrel _ _ r (by omega) (by omega)

theorem invalidSub_cons_none {c : Char} {cs : List Char}
    (h : invalidAtHead (c :: cs) = none) :
    invalidSub (c :: cs) = c :: invalidSub cs := by
  show invalidSubF (c :: cs).length (c :: cs) = c :: invalidSubF cs.length cs
  rw [List.length_cons]
  simp only [invalidSubF, h]

theorem validScanF_irrel :
    ∀ f1 f2 (l : List Char), l.length ≤ f1 → l.length ≤ f2 →
      validScanF f1 l = validScanF f2 l := by
  intro f1
  induction f1 with
  | zero =>
    intro f2 l h1 _
    have hl : l = [] := List.length_eq_zero.mp (Nat.le_zero.mp h1)
    subst hl
    simp [validScanF]
  | succ f1 ih =>
    intro f2 l h1 h2
    cases l with
    | nil => simp [validScanF]
    | cons c cs =>
      rw [List.length_cons] at h1 h2
      cases f2 with
      | zero => omega
      | succ f2' =>
        cases hm : validAtHead (c :: cs) with
        | some p =>
          obtain ⟨ds, rest⟩ := p
          have hr : rest.length < cs.length + 1 := validAtHead_length hm
          show validScanF (f1 + 1) (c :: cs) = validScanF (f2' + 1) (c :: cs)
          simp only [validScanF, hm]
          rw [ih f2' rest (by omega) (by omega)]
        | none =>
          show validScanF (f1 + 1) (c :: cs) = validScanF (f2' + 1) (c :: cs)
          simp only [validScanF, hm]
          exact ih f2' cs (by omega) (by omega)

theorem validScan_nil : validScan [] = [] := rfl

theorem validScan_cons_some {c : Char} {cs ds rest : List Char}
    (h : validAtHead (c :: cs) = some (ds, rest)) :
    validScan (c :: cs) = ds :: validScan rest := by
  have hr : rest.length < cs.length + 1 := validAtHead_length h
  show validScanF (c :: cs).length (c :: cs) = ds :: validScanF rest.length rest
  rw [List.length_cons]
  simp only [validScanF, h]
  rw [validScanF_irrel cs.length rest.length rest (by omega) (Nat.le_refl _)]

theorem validScan_cons_none {c : Char} {cs : List Char}
    (h : validAtHead (c :: cs) = none) :
    validScan (c :: cs) = validScan cs := by
  show validScanF (c :: cs).length (c :: cs) = validScanF cs.length cs
  rw [List.length_cons]
  simp only [validScanF, h]

theorem encodeValidF_irrel :
    ∀ f1 f2 (pending l : List Char), l.length ≤ f1 → l.length ≤ f2 →
      encodeValidF f1 pending l = encodeValidF f2 pending l := by
  intro f1
  induction f1 with
  | zero =>
    intro f2 pending l h1 _
    have hl : l = [] := List.length_eq_zero.mp (Nat.le_zero.mp h1)
    subst hl
    simp [encodeValidF]
  | succ f1 ih =>
    intro f2 pending l h1 h2
    cases l with
    | nil => simp [encodeValidF]
    | cons c cs =>
      rw [List.length_cons] at h1 h2
      cases f2 with
      | zero => omega
      | succ f2' =>
        cases hm : validAtHead (c :: cs) with
        | some p =>
          obtain ⟨ds, rest⟩ := p
          have hr : rest.length < cs.length + 1 := validAtHead_length hm
          show encodeValidF (f1 + 1) pending (c :: cs) =
            encodeValidF (f2' + 1) pending (c :: cs)
          simp only [encodeValidF, hm]
          rw [ih f2' [] rest (by omega) (by omega)]
        | none =>
          show encodeValidF (f1 + 1) pending (c :: cs) =
            encodeValidF (f2' + 1) pending (c :: cs)
          simp only [encodeValidF, hm]
          exact ih f2' (c :: pending) cs (by omega) (by omega)

theorem encodeGo_nil (pending : List Char) :
    encodeValidGo pending [] =
      if pending.isEmpty then [] else [Seg.Plain pending.reverse] := rfl

theorem encodeGo_cons_some {c : Char} {cs ds rest : List Char}
    (h : validAtHead (c :: cs) = some (ds, rest)) (pending : List Char) :
    encodeValidGo pending (c :: cs) =
      (if pending.isEmpty then [] else [Seg.Plain pending.reverse]) ++
        spacer :: Seg.At ds :: spacer :: encodeValidGo [] rest := by
  have hr : rest.length < cs.length + 1 := validAtHead_length h
  show encodeValidF (c :: cs).length pending (c :: cs) = _
  rw [List.length_cons]
  simp only [encodeValidF, h]
  rw [encodeValidF_irrel cs.length rest.length [] rest (by omega) (Nat.le_refl _)]
  rfl

theorem encodeGo_cons_none {c : Char} {cs : List Char}
    (h : validAtHead (c :: cs) = none) (pending : List Char) :
    encodeValidGo pending (c :: cs) = encodeValidGo (c :: pending) cs := by
  show encodeValidF (c :: cs).length pending (c :: cs) =
    encodeValidF cs.length (c :: pending) cs
  rw [List.length_cons]
  simp only [encodeValidF, h]

/-! Occurrences of the tag prefix and tag-free text. -/

theorem containsTag_cons (c : Char) (cs : List Char) :
    containsTag (c :: cs) = (startsWithAt (c :: cs) || containsTag cs) := rfl

theorem containsTag_cons_false {c : Char} {cs : List Char}
    (h : containsTag (c :: cs) = false) :
    startsWithAt (c :: cs) = false ∧ containsTag cs = false := by
  rw [containsTag_cons] at h
  exact ⟨by cases hsw : startsWithAt (c :: cs) with
          | false => rfl
          | true => rw [hsw] at h; simp at h,
        by cases hct : containsTag cs with
          | false => rfl
          | true => rw [hct] at h; simp at h⟩

theorem containsTag_cons_ne {c : Char} {cs : List Char} (hc : c ≠ '[')
    (h : containsTag cs = false) : containsTag (c :: cs) = false := by
  rw [containsTag_cons, h]
  cases hsw : startsWithAt (c :: cs) with
  | false => rfl
  | true => exact absurd (startsWithAt_head hsw) hc

theorem containsTag_all_ne {l m : List Char} (hl : ∀ x ∈ l, x ≠ '[')
    (hm : containsTag m = false) : containsTag (l ++ m) = false := by
  induction l with
  | nil => simpa using hm
  | cons c cs ih =>
    rw [List.cons_append]
    exact containsTag_cons_ne (hl c (by simp))
      (ih (fun x hx => hl x (by simp [hx])))

theorem containsTag_mono_left {a b : List Char} (h : containsTag a = true) :
    containsTag (a ++ b) = true := by
  induction a with
  | nil => simp [containsTag] at h
  | cons c cs ih =>
    rw [containsTag_cons] at h
    rw [List.cons_append, containsTag_cons]
    cases hsw : startsWithAt (c :: cs) with
    | true =>
      have hm := startsWithAt_mono (m := b) hsw
      rw [List.cons_append] at hm
      rw [hm, Bool.true_or]
    | false =>
      rw [hsw, Bool.false_or] at h
      rw [ih h, Bool.or_true]

theorem containsTag_append_right {a b : List Char}
    (h : containsTag (a ++ b) = false) : containsTag b = false := by
  induction a with
  | nil => simpa using h
  | cons c cs ih =>
    rw [List.cons_append] at h
    exact ih (containsTag_cons_false h).2

theorem containsTag_append_left {a b : List Char}
    (h : containsTag (a ++ b) = false) : containsTag a = false := by
  cases hc : containsTag a with
  | false => rfl
  | true => rw [containsTag_mono_left hc] at h; cases h

/-! Scanning tag-free text. -/

theorem invalidSub_of_noTag {l : List Char} (h : containsTag l = false) :
    invalidSub l = l := by
  induction l with
  | nil => rfl
  | cons c cs ih =>
    obtain ⟨h1, h2⟩ := containsTag_cons_false h
    rw [invalidSub_cons_none (invalidAtHead_of_not_start h1), ih h2]

theorem validScan_of_noTag {l : List Char} (h : containsTag l = false) :
    validScan l = [] := by
  induction l with
  | nil => rfl
  | cons c cs ih =>
    obtain ⟨h1, h2⟩ := containsTag_cons_false h
    rw [validScan_cons_none (validAtHead_of_not_start h1), ih h2]

theorem encodeGo_of_noTag {l : List Char} (h : containsTag l = false) :
    ∀ pending, encodeValidGo pending l =
      if (pending.reverse ++ l).isEmpty then []
      else [Seg.Plain (pending.reverse ++ l)] := by
  induction l with
  | nil =>
    intro pending
    rw [encodeGo_nil, List.append_nil]
    rcases pending with _ | ⟨p, ps⟩
    · rfl
    · simp
  | cons c cs ih =>
    intro pending
    obtain ⟨h1, h2⟩ := containsTag_cons_false h
    rw [encodeGo_cons_none (validAtHead_of_not_start h1), ih h2 (c :: pending),
      List.reverse_cons, List.append_assoc, List.singleton_append]

/-! Scanning across a tag-free block followed by a `[`. -/

theorem invalidSub_append {pre rest : List Char} (hp : containsTag pre = false)
    (hr : rest.head? = some '[') :
    invalidSub (pre ++ rest) = pre ++ invalidSub rest := by
  induction pre with
  | nil => simp
  | cons c cs ih =>
    obtain ⟨h1, h2⟩ := containsTag_cons_false hp
    have hsw := startsWithAt_append_false h1 hr
    rw [List.cons_append] at hsw
    rw [List.cons_append, invalidSub_cons_none (invalidAtHead_of_not_start hsw),
      ih h2, List.cons_append]

theorem validScan_append {pre rest : List Char} (hp : containsTag pre = false)
    (hr : rest.head? = some '[') :
    validScan (pre ++ rest) = validScan rest := by
  induction pre with
  | nil => simp
  | cons c cs ih =>
    obtain ⟨h1, h2⟩ := containsTag_cons_false hp
    have hsw := startsWithAt_append_false h1 hr
    rw [List.cons_append] at hsw
    rw [List.cons_append, validScan_cons_none (validAtHead_of_not_start hsw),
      ih h2]

theorem encodeGo_append {pre rest : List Char} (hp : containsTag pre = false)
    (hr : rest.head? = some '[') :
    ∀ pending, encodeValidGo pending (pre ++ rest) =
      encodeValidGo (pre.reverse ++ pending) rest := by
  induction pre with
  | nil => intro pending; simp
  | cons c cs ih =>
    intro pending
    obtain ⟨h1, h2⟩ := containsTag_cons_false hp
    have hsw := startsWithAt_append_false h1 hr
    rw [List.cons_append] at hsw
    rw [List.cons_append, encodeGo_cons_none (validAtHead_of_not_start hsw),
      ih h2 (c :: pending), List.reverse_cons, List.append_assoc,
      List.singleton_append]

/-! Digit blocks and the two grammars at a tag occurrence. -/

theorem takeWhile_digits {ds : List Char} (h : ds.all Char.isDigit = true)
    (r : List Char) :
    (ds ++ ']' :: r).takeWhile Char.isDigit = ds ∧
    (ds ++ ']' :: r).dropWhile Char.isDigit = ']' :: r := by
  induction ds with
  | nil =>
    constructor
    · rw [List.nil_append, List.takeWhile_cons_of_neg (by decide)]
    · rw [List.nil_append, List.dropWhile_cons_of_neg (by decide)]
  | cons d ds ih =>
    rw [List.all_cons, Bool.and_eq_true] at h
    obtain ⟨hd, hall⟩ := h
    obtain ⟨iht, ihd⟩ := ih hall
    constructor
    · rw [List.cons_append, List.takeWhile_cons_of_pos hd, iht]
    · rw [List.cons_append, List.dropWhile_cons_of_pos hd, ihd]

theorem takeWhile_not_all {bad : List Char} (h : bad.all Char.isDigit = false)
    (r : List Char) :
    (bad ++ r).takeWhile Char.isDigit = bad.takeWhile Char.isDigit ∧
    (bad ++ r).dropWhile Char.isDigit = bad.dropWhile Char.isDigit ++ r := by
  induction bad with
  | nil => simp at h
  | cons b bs ih =>
    rw [List.all_cons] at h
    cases hb : b.isDigit with
    | true =>
      rw [hb, Bool.true_and] at h
      obtain ⟨iht, ihd⟩ := ih h
      constructor
      · rw [List.cons_append, List.takeWhile_cons_of_pos hb, iht,
          List.takeWhile_cons_of_pos hb]
      · rw [List.cons_append, List.dropWhile_cons_of_pos hb, ihd,
          List.dropWhile_cons_of_pos hb]
    | false =>
      constructor
      · rw [List.cons_append, List.takeWhile_cons_of_neg (by simp [hb]),
          List.takeWhile_cons_of_neg (by simp [hb])]
      · rw [List.cons_append, List.dropWhile_cons_of_neg (by simp [hb]),
          List.dropWhile_cons_of_neg (by simp [hb]), List.cons_append]

theorem dropWhile_all_false {bad : List Char}
    (h : bad.all Char.isDigit = false) :
    ∃ y t, bad.dropWhile Char.isDigit = y :: t ∧ y.isDigit = false ∧
      y ∈ bad := by
  induction bad with
  | nil => simp at h
  | cons b bs ih =>
    rw [List.all_cons] at h
    cases hb : b.isDigit with
    | false =>
      exact ⟨b, bs, by rw [List.dropWhile_cons_of_neg (by simp [hb])], hb,
        by simp⟩
    | true =>
      rw [hb, Bool.true_and] at h
      obtain ⟨y, t, h1, h2, h3⟩ := ih h
      exact ⟨y, t, by rw [List.dropWhile_cons_of_pos hb]; exact h1, h2,
        by simp [h3]⟩

theorem dropWhile_no_rbrack {bad : List Char} (h : ∀ x ∈ bad, x ≠ ']')
    (r : List Char) :
    (bad ++ ']' :: r).dropWhile (fun c => !(c == ']')) = ']' :: r := by
  induction bad with
  | nil => rw [List.nil_append, List.dropWhile_cons_of_neg (by simp)]
  | cons b bs ih =>
    have hb : b ≠ ']' := h b (by simp)
    rw [List.cons_append, List.dropWhile_cons_of_pos (by simp [hb]),
      ih (fun x hx => h x (by simp [hx]))]

theorem validAtHead_tag (x : List Char) :
    validAtHead ('[' :: 'a' :: 't' :: ':' :: x) =
      (if (x.takeWhile Char.isDigit).isEmpty then none
       else
         match x.dropWhile Char.isDigit with
         | ']' :: r => some (x.takeWhile Char.isDigit, r)
         | _ => none) := by
  unfold validAtHead
  rw [if_pos (show startsWithAt ('[' :: 'a' :: 't' :: ':' :: x) = true from rfl)]
  rfl

theorem invalidAtHead_tag (x : List Char) :
    invalidAtHead ('[' :: 'a' :: 't' :: ':' :: x) =
      (if !(x.takeWhile Char.isDigit).isEmpty
          && headIsRB (x.dropWhile Char.isDigit) then
        none
       else
         match x.dropWhile (fun c => !(c == ']')) with
         | ']' :: r => some r
         | _ => none) := by
  unfold invalidAtHead
  rw [if_pos (show startsWithAt ('[' :: 'a' :: 't' :: ':' :: x) = true from rfl)]
  rfl

theorem isEmpty_false_of_ne_nil {l : List Char} (h : l ≠ []) :
    l.isEmpty = false := by
  cases l with
  | nil => exact absurd rfl h
  | cons c cs => rfl

theorem validAtHead_validTag {ds : List Char} (h1 : ds ≠ [])
    (h2 : ds.all Char.isDigit = true) (post : List Char) :
    validAtHead ('[' :: 'a' :: 't' :: ':' :: (ds ++ ']' :: post)) =
      some (ds, post) := by
  obtain ⟨ht, hd⟩ := takeWhile_digits h2 post
  rw [validAtHead_tag, ht, hd, if_neg (by rw [isEmpty_false_of_ne_nil h1]; simp)]
  rfl

theorem invalidAtHead_validTag {ds : List Char} (h1 : ds ≠ [])
    (h2 : ds.all Char.isDigit = true) (post : List Char) :
    invalidAtHead ('[' :: 'a' :: 't' :: ':' :: (ds ++ ']' :: post)) = none := by
  obtain ⟨ht, hd⟩ := takeWhile_digits h2 post
  rw [invalidAtHead_tag, ht, hd, if_pos]
  rw [isEmpty_false_of_ne_nil h1]
  rfl

theorem invalidAtHead_invalidTag {bad : List Char} (h1 : ∀ x ∈ bad, x ≠ ']')
    (h2 : ¬(bad ≠ [] ∧ bad.all Char.isDigit = true)) (post : List Char) :
    invalidAtHead ('[' :: 'a' :: 't' :: ':' :: (bad ++ ']' :: post)) =
      some post := by
  have hbody := dropWhile_no_rbrack h1 post
  rw [invalidAtHead_tag]
  cases hall : bad.all Char.isDigit with
  | true =>
    have hbad : bad = [] := by
      by_contra hne
      exact h2 ⟨hne, hall⟩
    subst hbad
    rw [List.nil_append] at hbody ⊢
    rw [List.takeWhile_cons_of_neg (by decide)]
    rw [if_neg (by simp), hbody]
    rfl
  | false =>
    obtain ⟨iht, ihd⟩ := takeWhile_not_all hall (']' :: post)
    obtain ⟨y, t, hy1, hy2, hy3⟩ := dropWhile_all_false hall
    have hyne : y ≠ ']' := h1 y hy3
    rw [iht, ihd, hy1, List.cons_append]
    rw [if_neg (by
      rw [show headIsRB (y :: (t ++ ']' :: post)) = (y == ']') from rfl,
        beq_eq_false_iff_ne.mpr hyne, Bool.and_false]
      simp)]
    rw [hbody]
    rfl

/-! Chain-level helpers. -/

theorem flatMapSegs_append (f : Seg → List Seg) (a b : List Seg) :
    flatMapSegs f (a ++ b) = flatMapSegs f a ++ flatMapSegs f b := by
  induction a with
  | nil => rfl
  | cons s rest ih => simp [flatMapSegs, ih, List.append_assoc]

theorem flatMapSegs_congr {f g : Seg → List Seg} (h : ∀ s, f s = g s)
    (l : List Seg) : flatMapSegs f l = flatMapSegs g l := by
  induction l with
  | nil => rfl
  | cons s rest ih => simp [flatMapSegs, h s, ih]

theorem flatMapSegs_singleton (l : List Seg) :
    flatMapSegs (fun s => [s]) l = l := by
  induction l with
  | nil => rfl
  | cons s rest ih => simp [flatMapSegs, ih]

/-- The flushed buffer is never an empty text segment. -/
theorem flush_no_empty (pending : List Char) :
    Seg.Plain [] ∉
      (if pending.isEmpty then ([] : List Seg)
       else [Seg.Plain pending.reverse]) := by
  rcases pending with _ | ⟨p, ps⟩
  · simp
  · simp

/-- The encoding loop never emits an empty text segment. -/
theorem encodeValidF_no_empty :
    ∀ (fuel : Nat) (pending cs : List Char),
      Seg.Plain [] ∉ encodeValidF fuel pending cs := by
  intro fuel
  induction fuel with
  | zero =>
    intro pending cs
    cases cs with
    | nil => exact flush_no_empty pending
    | cons c cs' => simp [encodeValidF]
  | succ fuel ih =>
    intro pending cs
    cases cs with
    | nil => exact flush_no_empty pending
    | cons c cs' =>
      cases hm : validAtHead (c :: cs') with
      | some p =>
        obtain ⟨ds, rest⟩ := p
        simp only [encodeValidF, hm]
        intro hmem
        rw [List.mem_append] at hmem
        rcases hmem with hm1 | hm1
        · exact flush_no_empty pending hm1
        · simp only [List.mem_cons] at hm1
          rcases hm1 with hm2 | hm2 | hm2 | hm2
          · exact absurd hm2 (by decide)
          · exact Seg.noConfusion hm2
          · exact absurd hm2 (by decide)
          · exact ih [] rest hm2
      | none =>
        simp only [encodeValidF, hm]
        exact ih (c :: pending) cs'

/-- The per-text rewriting never emits an empty text segment. -/
theorem processPlain_no_empty (t : List Char) :
    Seg.Plain [] ∉ processPlain t :=
  encodeValidF_no_empty _ _ _

/-- The rebuild path never emits an empty text segment. -/
theorem flatMapSegs_no_empty (chain : List Seg) :
    Seg.Plain [] ∉ flatMapSegs rewriteSeg chain := by
  induction chain with
  | nil => simp [flatMapSegs]
  | cons s rest ih =>
    simp only [flatMapSegs]
    intro hmem
    rw [List.mem_append] at hmem
    rcases hmem with hm | hm
    · cases s with
      | Plain t => exact processPlain_no_empty t hm
      | At q => simp [rewriteSeg] at hm
      | media n => simp [rewriteSeg] at hm
    · exact ih hm

/-! Roster helpers. -/

theorem projMember_none_iff (m : RawMember) :
    projMember m = none ↔ (m.user_id.getD []).isEmpty = true := by
  simp only [projMember]
  cases hu : (m.user_id.getD []).isEmpty with
  | true => simp [hu]
  | false => simp [hu]

theorem processMembers_length (ms : List RawMember) :
    (processMembers ms).length =
      (ms.filter (fun m => !(m.user_id.getD []).isEmpty)).length := by
  induction ms with
  | nil => rfl
  | cons m rest ih =>
    cases hm : projMember m with
    | none =>
      have hu : (m.user_id.getD []).isEmpty = true :=
        (projMember_none_iff m).mp hm
      simp only [processMembers, List.filterMap_cons, hm, List.filter_cons, hu]
      simpa [processMembers] using ih
    | some r =>
      have hu : (m.user_id.getD []).isEmpty = false := by
        cases hu' : (m.user_id.getD []).isEmpty with
        | false => rfl
        | true => rw [(projMember_none_iff m).mpr hu'] at hm; cases hm
      simp only [processMembers, List.filterMap_cons, hm, List.filter_cons, hu]
      simpa [processMembers] using ih

/-! The claims. -/

theorem isEmpty_reverse (l : List Char) : l.reverse.isEmpty = l.isEmpty := by
  cases l with
  | nil => rfl
  | cons c cs =>
    rw [List.reverse_cons, isEmpty_false_of_ne_nil (by simp)]
    rfl

/-- C1: on the chain `[Text "a [at:1] b", non-text img, Text "[at:x] c"]`
the rewriter produces exactly `Text "a "`, spacer, mention `"1"`,
spacer, `Text " b"`, the unchanged non-text segment, `Text " c"`: the
non-text segment keeps its relative position, the valid tag becomes a
spacer-flanked mention element, and the invalid tag vanishes with no
spacers or element emitted for it. -/
theorem c1_order_preservation :
    process_at_tags
        [Seg.Plain "a [at:1] b".toList, Seg.media 0,
          Seg.Plain "[at:x] c".toList] =
      [Seg.Plain "a ".toList, spacer, Seg.At "1".toList, spacer,
        Seg.Plain " b".toList, Seg.media 0, Seg.Plain " c".toList] := by
  decide

/-- C2: for every string of the shape `pre ++ "[at:" ++ ds ++ "]" ++ post`
whose ID field `ds` is one-or-more decimal digits (any length, leading
zeros kept as part of the captured string) and whose surrounding text
contains no further occurrence of the tag prefix, sanitization leaves
the string unchanged, scanning yields exactly one match capturing `ds`
itself, and rewriting produces the text before the tag (when
non-empty), spacer, mention `ds`, spacer, and the text after the tag
(when non-empty), verbatim. -/
theorem c2_valid_tag (pre post ds : List Char) (h1 : ds ≠ [])
    (h2 : ds.all Char.isDigit = true) (h3 : containsTag pre = false)
    (h4 : containsTag post = false) :
    invalidSub (pre ++ '[' :: 'a' :: 't' :: ':' :: (ds ++ ']' :: post)) =
      pre ++ '[' :: 'a' :: 't' :: ':' :: (ds ++ ']' :: post) ∧
    validScan (pre ++ '[' :: 'a' :: 't' :: ':' :: (ds ++ ']' :: post)) =
      [ds] ∧
    processPlain (pre ++ '[' :: 'a' :: 't' :: ':' :: (ds ++ ']' :: post)) =
      (if pre.isEmpty then [] else [Seg.Plain pre]) ++
        spacer :: Seg.At ds :: spacer ::
          (if post.isEmpty then [] else [Seg.Plain post]) := by
  have hds : ∀ x ∈ ds, x ≠ '[' := by
    intro x hx heq
    have hdig := List.all_eq_true.mp h2 x hx
    subst heq
    exact absurd hdig (by decide)
  have hafter : containsTag ('a' :: 't' :: ':' :: (ds ++ ']' :: post)) = false := by
    refine containsTag_cons_ne (by decide) ?_
    refine containsTag_cons_ne (by decide) ?_
    refine containsTag_cons_ne (by decide) ?_
    exact containsTag_all_ne hds (containsTag_cons_ne (by decide) h4)
  have hr : ('[' :: 'a' :: 't' :: ':' :: (ds ++ ']' :: post)).head? =
      some '[' := rfl
  have hsub : invalidSub (pre ++ '[' :: 'a' :: 't' :: ':' :: (ds ++ ']' :: post)) =
      pre ++ '[' :: 'a' :: 't' :: ':' :: (ds ++ ']' :: post) := by
    rw [invalidSub_append h3 hr,
      invalidSub_cons_none (invalidAtHead_validTag h1 h2 post),
      invalidSub_of_noTag hafter]
  refine ⟨hsub, ?_, ?_⟩
  · rw [validScan_append h3 hr,
      validScan_cons_some (validAtHead_validTag h1 h2 post),
      validScan_of_noTag h4]
  · show encodeText (invalidSub _) = _
    rw [hsub]
    show encodeValidGo [] _ = _
    rw [encodeGo_append h3 hr, List.append_nil,
      encodeGo_cons_some (validAtHead_validTag h1 h2 post),
      encodeGo_of_noTag h4 [], isEmpty_reverse, List.reverse_reverse,
      List.reverse_nil, List.nil_append]

/-- Witness for C2 at `pre = "x "`, `ds = "12345"`, `post = " y"`. -/
theorem c2_valid_tag_witness :
    validScan "x [at:12345] y".toList = ["12345".toList] :=
  (c2_valid_tag "x ".toList " y".toList "12345".toList (by decide)
    (by decide) (by decide) (by decide)).2.1

/-- C3: for every string of the shape `pre ++ "[at:" ++ bad ++ "]" ++ post`
whose bracketed ID field `bad` contains no `]` and is not one-or-more
decimal digits (so including the empty field and fields like `unknown`
or `abc123`), and whose surrounding text contains no occurrence of the
tag prefix, sanitization deletes the whole bracketed token (replacing
it with the empty string), scanning the sanitized text yields no
match, and rewriting emits no mention element and no spacers — just
the surrounding text (when non-empty). -/
theorem c3_invalid_tag (pre post bad : List Char) (h1 : ']' ∉ bad)
    (h2 : ¬(bad ≠ [] ∧ bad.all Char.isDigit = true))
    (h5 : containsTag (pre ++ post) = false) :
    invalidSub (pre ++ '[' :: 'a' :: 't' :: ':' :: (bad ++ ']' :: post)) =
      pre ++ post ∧
    validScan
        (invalidSub (pre ++ '[' :: 'a' :: 't' :: ':' :: (bad ++ ']' :: post))) =
      [] ∧
    processPlain (pre ++ '[' :: 'a' :: 't' :: ':' :: (bad ++ ']' :: post)) =
      (if (pre ++ post).isEmpty then [] else [Seg.Plain (pre ++ post)]) := by
  have h3 : containsTag pre = false := containsTag_append_left h5
  have h4 : containsTag post = false := containsTag_append_right h5
  have hr : ('[' :: 'a' :: 't' :: ':' :: (bad ++ ']' :: post)).head? =
      some '[' := rfl
  have hb : ∀ x ∈ bad, x ≠ ']' := fun x hx he => h1 (he ▸ hx)
  have hsub :
      invalidSub (pre ++ '[' :: 'a' :: 't' :: ':' :: (bad ++ ']' :: post)) =
        pre ++ post := by
    rw [invalidSub_append h3 hr,
      invalidSub_cons_some (invalidAtHead_invalidTag hb h2 post),
      invalidSub_of_noTag h4]
  refine ⟨hsub, ?_, ?_⟩
  · rw [hsub, validScan_of_noTag h5]
  · show encodeText (invalidSub _) = _
    rw [hsub]
    show encodeValidGo [] _ = _
    rw [encodeGo_of_noTag h5 [], List.reverse_nil, List.nil_append]

/-- Witness for C3 at `pre = "x "`, `bad = "unknown"`, `post = " y"`. -/
theorem c3_invalid_tag_witness :
    invalidSub "x [at:unknown] y".toList = "x  y".toList :=
  (c3_invalid_tag "x ".toList " y".toList "unknown".toList (by decide)
    (by decide) (by decide)).1

/-- C4: for every chain in which no text segment's content contains an
occurrence of the tag prefix `"[at:"`, the rewriter returns the input
chain unchanged. -/
theorem c4_identity_no_prefix (chain : List Seg)
    (h : ∀ s ∈ chain, containsTag (textOf s) = false) :
    process_at_tags chain = chain := by
  have hc : chainHasTag chain = false := by
    rw [chainHasTag, List.any_eq_false]
    intro s hs
    cases s with
    | Plain t =>
      have := h _ hs
      simp only [isPlainWithTag]
      simp only [textOf] at this
      simp [this]
    | At q => simp [isPlainWithTag]
    | media n => simp [isPlainWithTag]
  rw [process_at_tags, hc]
  simp

/-- Witness for C4 on a chain of tag-free segments. -/
theorem c4_identity_witness :
    process_at_tags
        [Seg.Plain "hello".toList, Seg.media 1, Seg.At "5".toList] =
      [Seg.Plain "hello".toList, Seg.media 1, Seg.At "5".toList] :=
  c4_identity_no_prefix _ (by decide)

/-- C5 counterexample: the rewriter is not idempotent.  On the chain
`[Text "[at[at:q]:z]"]` the first pass deletes the invalid inner tag
`[at:q]`, splicing the remaining text into `"[at:z]"`, so the output is
`[Text "[at:z]"]`, which still contains a raw (invalid) sentinel tag;
the second pass deletes it and returns the empty chain. -/
theorem c5_not_idempotent :
    process_at_tags (process_at_tags [Seg.Plain "[at[at:q]:z]".toList]) ≠
      process_at_tags [Seg.Plain "[at[at:q]:z]".toList] := by decide

/-- C5 amended: re-running the rewriter on its own output is a no-op
whenever that output contains no text segment with the tag prefix
`"[at:"` (in particular whenever the first pass expanded every tag and
its deletions did not splice surrounding text into a new tag); in
general idempotence fails, see the counterexample. -/
theorem c5_idempotent_when_output_tag_free (chain : List Seg)
    (h : chainHasTag (process_at_tags chain) = false) :
    process_at_tags (process_at_tags chain) = process_at_tags chain := by
  rw [process_at_tags, h]
  simp

/-- Witness for C5 (amended) on the chain `[Text "hi [at:7]!"]`. -/
theorem c5_idempotent_witness :
    process_at_tags (process_at_tags [Seg.Plain "hi [at:7]!".toList]) =
      process_at_tags [Seg.Plain "hi [at:7]!".toList] :=
  c5_idempotent_when_output_tag_free _ (by decide)

/-- C6: the output of the rewriter is the in-order concatenation of a
per-segment expansion (so the relative order of the material derived
from each segment is preserved), and that expansion maps every
non-text segment — mention components and other media alike — to
itself, unchanged, on both the fast path and the rebuild path. -/
theorem c6_order_and_passthrough :
    (∀ chain : List Seg,
        process_at_tags chain =
          flatMapSegs (expandSeg (chainHasTag chain)) chain) ∧
    (∀ (b : Bool) (n : Nat), expandSeg b (Seg.media n) = [Seg.media n]) ∧
    (∀ (b : Bool) (q : List Char), expandSeg b (Seg.At q) = [Seg.At q]) := by
  refine ⟨?_, ?_, ?_⟩
  · intro chain
    rw [process_at_tags]
    cases h : chainHasTag chain with
    | true =>
      rw [if_pos rfl]
      exact (flatMapSegs_congr (fun s => rfl) chain).symm
    | false =>
      rw [if_neg (by simp)]
      rw [show flatMapSegs (expandSeg false) chain =
            flatMapSegs (fun s => [s]) chain from
          flatMapSegs_congr (fun s => rfl) chain,
        flatMapSegs_singleton]
  · intro b n; cases b <;> rfl
  · intro b q; cases b <;> rfl

/-- C7 counterexample: the output chain can contain an empty text
segment — on the fast path the input chain, empty text segments
included, is returned unchanged. -/
theorem c7_empty_text_in_output :
    Seg.Plain [] ∈ process_at_tags [Seg.Plain []] := by decide

/-- C7 amended: whenever some text segment of the input contains the
tag prefix (so the rebuild path runs), the output chain contains no
text segment with empty content: the pre-match piece is flushed only
when non-empty and so is the trailing piece; on the fast path the
input — possibly already containing empty text segments — is returned
as it is. -/
theorem c7_no_empty_text_on_rebuild (chain : List Seg)
    (h : chainHasTag chain = true) :
    Seg.Plain [] ∉ process_at_tags chain := by
  rw [process_at_tags, h]
  simp only [if_true]
  exact flatMapSegs_no_empty chain

/-- Witness for C7 (amended): an empty input text segment and a
sanitized-away text segment are both dropped on the rebuild path. -/
theorem c7_no_empty_text_witness :
    Seg.Plain [] ∉
      process_at_tags [Seg.Plain "a[at:x]".toList, Seg.Plain []] :=
  c7_no_empty_text_on_rebuild _ (by decide)

/-- C8: the roster projection maps each raw record to its stringified
`user_id`, the name list `[card, nickname]` keeping only present,
non-empty entries with the card first, and the raw role defaulting to
`"member"` when absent; records with an absent or empty id are
discarded, and the reported total is the number of retained members.
In particular the two example records yield total `2` and exactly the
two projected members. -/
theorem c8_roster_projection :
    (processMembers
        [⟨some "1".toList, some "Bob".toList, some "bobby".toList,
            some "admin".toList⟩,
          ⟨some "2".toList, none, some "Al".toList, none⟩] =
      [⟨"1".toList, ["Bob".toList, "bobby".toList], "admin".toList⟩,
        ⟨"2".toList, ["Al".toList], "member".toList⟩]) ∧
    (get_group_members ⟨some "g".toList, true⟩
        (some
          [⟨some "1".toList, some "Bob".toList, some "bobby".toList,
              some "admin".toList⟩,
            ⟨some "2".toList, none, some "Al".toList, none⟩]) =
      (ToolResult.ok "g".toList 2
        [⟨"1".toList, ["Bob".toList, "bobby".toList], "admin".toList⟩,
          ⟨"2".toList, ["Al".toList], "member".toList⟩], 1)) ∧
    (∀ m : RawMember,
        projMember m = none ↔ (m.user_id.getD []).isEmpty = true) ∧
    (∀ ms : List RawMember,
        (processMembers ms).length =
          (ms.filter (fun m => !(m.user_id.getD []).isEmpty)).length) :=
  ⟨by decide, by decide, projMember_none_iff, processMembers_length⟩

/-- C9: called with a falsy group identifier (no group context), the
tool returns the value-level error payload
`{"error": "Not a group chat environment."}` and performs zero network
calls, whatever the member-list lookup would have returned. -/
theorem c9_no_group_no_fetch (ev : Event) (fetch : Option (List RawMember))
    (h : groupIdFalsy ev.group_id = true) :
    get_group_members ev fetch = (ToolResult.err errNotGroup, 0) := by
  rw [get_group_members.eq_def, h]
  simp

/-- Witness for C9 at an event with no group id. -/
theorem c9_no_group_witness :
    get_group_members ⟨none, true⟩
        (some [⟨some "1".toList, none, none, none⟩]) =
      (ToolResult.err errNotGroup, 0) :=
  c9_no_group_no_fetch _ _ (by decide)

/-- C10: when the rebuild path runs, a text segment whose content is
empty, or becomes empty after invalid-tag deletion, contributes
nothing to the output chain — it is silently dropped, the rest of the
chain being rewritten as usual. -/
theorem c10_empty_text_dropped (pre post : List Seg) (t : List Char)
    (h1 : chainHasTag (pre ++ Seg.Plain t :: post) = true)
    (h2 : invalidSub t = []) :
    process_at_tags (pre ++ Seg.Plain t :: post) =
      flatMapSegs rewriteSeg pre ++ flatMapSegs rewriteSeg post := by
  rw [process_at_tags, h1]
  simp only [if_true]
  rw [flatMapSegs_append]
  simp only [flatMapSegs]
  rw [show rewriteSeg (Seg.Plain t) = processPlain t from rfl, processPlain,
    h2]
  simp [encodeText, encodeValidGo, encodeValidF]

/-- Witness for C10: the segment `Text "[at:x]"` sanitizes to the empty
string and disappears from the output. -/
theorem c10_empty_text_witness :
    process_at_tags
        [Seg.Plain "[at:1]".toList, Seg.Plain "[at:x]".toList] =
      flatMapSegs rewriteSeg [Seg.Plain "[at:1]".toList] ++
        flatMapSegs rewriteSeg [] :=
  c10_empty_text_dropped [Seg.Plain "[at:1]".toList] []
    "[at:x]".toList (by decide) (by decide)

end AtTool
